import Mathlib

/-!
Shallow embedding of `language/move-prover/bytecode/src/function_target.rs`
(the FunctionData / FunctionTarget IR container of the Diem move-prover)
and proofs about its query and transformation operations.

BTreeMap values are embedded as association lists in ascending key order
(the map's iteration sequence); `MapWF` states that invariant.  Payload
types owned by external crates (source locations, specifications,
expressions, struct ids) are opaque to this file and embedded as `Nat`.
-/

namespace DiemFT

/-- Modelled from the spec: move-model `Type` is consumed by this core only
through its `is_reference` test, so a type descriptor is embedded by whether
it is a reference type. -/
inductive MvType where
  | reference : MvType
  | nonReference : MvType
deriving DecidableEq

def MvType.is_reference : MvType → Bool
  | .reference => true
  | .nonReference => false

/-- Modelled from the spec: a stackless-bytecode operation is consumed only
through the test whether it is a direct call of a statically known function,
together with the callee's qualified id (module id, function id). -/
inductive Operation where
  | function (mid fid : Nat) : Operation
  | otherOp : Operation
deriving DecidableEq

/-- Modelled from the spec: a stackless-bytecode instruction exposes its
attribute id, whether it declares a label (and the label's value), and
whether it is a call carrying an operation. -/
inductive Bytecode where
  | label (attr : Nat) (l : Nat) : Bytecode
  | call (attr : Nat) (op : Operation) : Bytecode
  | otherInstr (attr : Nat) : Bytecode
deriving DecidableEq

def Bytecode.get_attr_id : Bytecode → Nat
  | .label a _ => a
  | .call a _ => a
  | .otherInstr a => a

/-- The callee of a direct, statically-resolved call instruction
(`Call(_, _, Function(mid, fid, _), _)` in the source), if any. -/
def Bytecode.callee : Bytecode → Option (Nat × Nat)
  | .call _ (.function mid fid) => some (mid, fid)
  | _ => none

/-- Association-list lookup, first match; with ascending unique keys this is
`BTreeMap::get`. -/
def alookup {α β : Type} [DecidableEq α] : List (α × β) → α → Option β
  | [], _ => none
  | (k, v) :: rest, a => if k = a then some v else alookup rest a

/-- Linear scan returning the first key whose value equals the query,
mirroring the for-loops of `get_input_for_return_index` and
`get_reverse_ref_proxy_index`. -/
def revLookup : List (Nat × Nat) → Nat → Option Nat
  | [], _ => none
  | (k, v) :: rest, x => if v = x then some k else revLookup rest x

/-- Sorted insert replacing an existing binding: the effect of
`BTreeMap::insert` on the iteration sequence. -/
def insertM (a b : Nat) : List (Nat × Nat) → List (Nat × Nat)
  | [] => [(a, b)]
  | (k, v) :: rest =>
    if a < k then (a, b) :: (k, v) :: rest
    else if a = k then (a, b) :: rest
    else (k, v) :: insertM a b rest

/-- Rebuilding a BTreeMap from an iterator of pairs
(`.into_iter() ... .collect()`): fold of inserts, later bindings win. -/
def collectM (l : List (Nat × Nat)) : List (Nat × Nat) :=
  l.foldl (fun m p => insertM p.1 p.2 m) []

def keysOf (m : List (Nat × Nat)) : List Nat := m.map Prod.fst

/-- Well-formedness of an embedded BTreeMap: its iteration sequence is
strictly ascending in the keys. -/
def MapWF (m : List (Nat × Nat)) : Prop := List.Chain' (· < ·) (keysOf m)

/-- Executable strict-ascending check on a key list, used only to decide
`MapWF` on concrete maps. -/
def chainLtb : List Nat → Bool
  | [] => true
  | [_] => true
  | a :: b :: rest => (decide (a < b)) && chainLtb (b :: rest)

theorem chainLtb_iff (l : List Nat) : chainLtb l = true ↔ List.Chain' (· < ·) l := by
  induction l with
  | nil => simp [chainLtb]
  | cons a t ih =>
    cases t with
    | nil => simp [chainLtb]
    | cons b r =>
      rw [List.chain'_cons, ← ih]
      simp [chainLtb]

instance decMapWF (m : List (Nat × Nat)) : Decidable (MapWF m) :=
  decidable_of_iff (chainLtb (keysOf m) = true) (chainLtb_iff (keysOf m))

/-- The owned data of a function target (`struct FunctionData`).  Local
names are embedded as their character lists; the annotation store, modelled
from the spec, is a key-value side table. -/
structure FunctionData where
  code : List Bytecode
  local_types : List MvType
  return_types : List MvType
  param_proxy_map : List (Nat × Nat)
  ref_param_proxy_map : List (Nat × Nat)
  ref_param_return_map : List (Nat × Nat)
  acquires_global_resources : List Nat
  locations : List (Nat × Nat)
  annotations : List (Nat × Nat)
  spec_blocks_on_impl : List (Nat × Nat)
  name_to_index : List (List Char × Nat)
  modify_targets : List ((Nat × Nat) × List Nat)
deriving DecidableEq

/-- Modelled from the spec: the slice of the source-level `FunctionEnv`
descriptor this file needs — the public flag and the per-offset
specification table `get_spec().on_impl` (specifications opaque, as `Nat`). -/
structure FunctionEnv where
  is_public : Bool
  spec_on_impl : List (Nat × Nat)
deriving DecidableEq

/-- A function target pairs the source-level descriptor with the owned data
(`struct FunctionTarget`, annotation formatters omitted as transient). -/
structure FunctionTarget where
  func_env : FunctionEnv
  data : FunctionData
deriving DecidableEq

def FunctionTarget.is_public (ft : FunctionTarget) : Bool :=
  ft.func_env.is_public

/-- A call ends the lifetime of input references iff the function is public
and no return type is a reference (`call_ends_lifetime`). -/
def FunctionTarget.call_ends_lifetime (ft : FunctionTarget) : Bool :=
  ft.is_public && ft.data.return_types.all (fun ty => !ty.is_reference)

def FunctionTarget.get_ref_proxy_index (ft : FunctionTarget) (idx : Nat) : Option Nat :=
  alookup ft.data.ref_param_proxy_map idx

def FunctionTarget.is_unchecked_param (ft : FunctionTarget) (idx : Nat) : Bool :=
  (!ft.is_public || !ft.call_ends_lifetime) && (ft.get_ref_proxy_index idx).isSome

def FunctionTarget.get_return_index (ft : FunctionTarget) (idx : Nat) : Option Nat :=
  alookup ft.data.ref_param_return_map idx

def FunctionTarget.get_input_for_return_index (ft : FunctionTarget) (idx : Nat) : Option Nat :=
  revLookup ft.data.ref_param_return_map idx

def FunctionTarget.get_reverse_ref_proxy_index (ft : FunctionTarget) (idx : Nat) : Option Nat :=
  revLookup ft.data.ref_param_proxy_map idx

/-- Specification at a spec block id: resolve the block to a code offset in
`spec_blocks_on_impl`, then look the offset up in the descriptor's
specification table.  Either `expect` failing (a panic in the source) is
embedded as `none`. -/
def FunctionTarget.get_spec_on_impl (ft : FunctionTarget) (block_id : Nat) : Option Nat :=
  match alookup ft.data.spec_blocks_on_impl block_id with
  | none => none
  | some code_offset => alookup ft.func_env.spec_on_impl code_offset

/-- Rust `str::parse::<usize>` on the suffix string: an optional leading
plus sign, then one or more ASCII digits, with the value bounded by the
64-bit usize range; anything else is a parse error. -/
def parseUsize (s : List Char) : Option Nat :=
  let t := match s with
    | '+' :: rest => rest
    | _ => s
  if t.isEmpty then none
  else if t.all (fun c => c.isDigit) then
    let v := t.foldl (fun a c => a * 10 + (c.toNat - 48)) 0
    if v < 2 ^ 64 then some v else none
  else none

/-- Dropping the reserved temporary-name marker: the source's
`str.strip_prefix` applied with the two characters dollar and lowercase t. -/
def stripDollarT : List Char → Option (List Char)
  | '$' :: 't' :: rest => some rest
  | _ => none

/-- The index for a local name (`get_local_index`): look up `name_to_index`;
on a miss, if the name carries the reserved temporary marker, the suffix is
parsed with `.unwrap()` — a failed parse panics, embedded as `.error ()`. -/
def FunctionTarget.get_local_index (ft : FunctionTarget) (name : List Char) :
    Except Unit (Option Nat) :=
  match alookup ft.data.name_to_index name with
  | some i => .ok (some i)
  | none =>
    match stripDollarT name with
    | some s =>
      match parseUsize s with
      | some v => .ok (some v)
      | none => .error ()
    | none => .ok none

def FunctionData.next_free_attr_index (d : FunctionData) : Nat :=
  (d.code.map Bytecode.get_attr_id).foldl max 0 + 1

/-- The labels declared by the instruction sequence, in order (the
`filter_map` of `next_free_label_index`). -/
def FunctionData.labels (d : FunctionData) : List Nat :=
  d.code.filterMap (fun b => match b with | .label _ l => some l | _ => none)

def FunctionData.next_free_label_index (d : FunctionData) : Nat :=
  d.labels.foldl max 0 + 1

/-- Callee set of a code sequence: fold inserting each direct callee's
qualified id into a set (`BTreeSet` embedded as `Finset`). -/
def calleesOf (code : List Bytecode) : Finset (Nat × Nat) :=
  code.foldl (fun s b => match b.callee with | some c => insert c s | none => s) ∅

def FunctionData.get_callees (d : FunctionData) : Finset (Nat × Nat) :=
  calleesOf d.code

/-- Variable renaming (`rename_vars`): rebuild `param_proxy_map` and
`ref_param_proxy_map` from their entries with `f` applied to both sides;
no other field is touched. -/
def FunctionData.rename_vars (f : Nat → Nat) (d : FunctionData) : FunctionData :=
  { d with
    param_proxy_map := collectM (d.param_proxy_map.map (fun p => (f p.1, f p.2))),
    ref_param_proxy_map := collectM (d.ref_param_proxy_map.map (fun p => (f p.1, f p.2))) }

/-- The `Clone` impl for `FunctionData`: every field copied, except the
annotation store which is reset to its default (empty). -/
def FunctionData.clone (d : FunctionData) : FunctionData :=
  { code := d.code
    local_types := d.local_types
    return_types := d.return_types
    param_proxy_map := d.param_proxy_map
    ref_param_proxy_map := d.ref_param_proxy_map
    ref_param_return_map := d.ref_param_return_map
    acquires_global_resources := d.acquires_global_resources
    locations := d.locations
    annotations := []
    spec_blocks_on_impl := d.spec_blocks_on_impl
    name_to_index := d.name_to_index
    modify_targets := d.modify_targets }

/-! Lemmas about the association-list map model. -/

theorem keysOf_cons (p : Nat × Nat) (m : List (Nat × Nat)) :
    keysOf (p :: m) = p.1 :: keysOf m := rfl

theorem revLookup_cons (k v : Nat) (rest : List (Nat × Nat)) (x : Nat) :
    revLookup ((k, v) :: rest) x = if v = x then some k else revLookup rest x := rfl

theorem mapWF_iff_pairwise {m : List (Nat × Nat)} :
    MapWF m ↔ List.Pairwise (· < ·) (keysOf m) :=
  List.chain'_iff_pairwise

theorem mapWF_nodup {m : List (Nat × Nat)} (h : MapWF m) : (keysOf m).Nodup :=
  (mapWF_iff_pairwise.mp h).imp ne_of_lt

theorem mapWF_tail {p : Nat × Nat} {m : List (Nat × Nat)}
    (h : MapWF (p :: m)) : MapWF m := by
  rw [mapWF_iff_pairwise] at h ⊢
  exact (List.pairwise_cons.mp h).2

theorem mapWF_head_lt {p : Nat × Nat} {m : List (Nat × Nat)}
    (h : MapWF (p :: m)) : ∀ q ∈ m, p.1 < q.1 := by
  rw [mapWF_iff_pairwise] at h
  intro q hq
  exact (List.pairwise_cons.mp h).1 q.1 (List.mem_map_of_mem Prod.fst hq)

theorem alookup_isSome_iff {α β : Type} [DecidableEq α] {m : List (α × β)} {k : α} :
    (alookup m k).isSome = true ↔ k ∈ m.map Prod.fst := by
  induction m with
  | nil => simp [alookup]
  | cons p rest ih =>
    obtain ⟨k₀, v₀⟩ := p
    by_cases hk : k₀ = k
    · subst hk
      simp [alookup]
    · simp only [alookup, if_neg hk, List.map_cons, List.mem_cons, ih]
      constructor
      · exact Or.inr
      · rintro (h | h)
        · exact absurd h.symm hk
        · exact h

theorem keysOf_insertM {a b k : Nat} {m : List (Nat × Nat)} :
    k ∈ keysOf (insertM a b m) ↔ k = a ∨ k ∈ keysOf m := by
  induction m with
  | nil => simp [insertM, keysOf]
  | cons p rest ih =>
    obtain ⟨k₀, v₀⟩ := p
    simp only [insertM]
    split
    · simp only [keysOf_cons, List.mem_cons]
    · split
      · subst_vars
        simp only [keysOf_cons, List.mem_cons]
        tauto
      · simp only [keysOf_cons, List.mem_cons] at ih ⊢
        rw [ih]
        tauto

theorem mem_insertM_of {a b k v : Nat} {m : List (Nat × Nat)}
    (h : (k, v) ∈ insertM a b m) : (k = a ∧ v = b) ∨ (k, v) ∈ m := by
  induction m with
  | nil =>
    simp only [insertM, List.mem_singleton, Prod.mk.injEq] at h
    exact Or.inl h
  | cons p rest ih =>
    obtain ⟨k₀, v₀⟩ := p
    simp only [insertM] at h
    split at h
    · simp only [List.mem_cons, Prod.mk.injEq] at h ⊢
      tauto
    · split at h
      · simp only [List.mem_cons, Prod.mk.injEq] at h ⊢
        tauto
      · simp only [List.mem_cons, Prod.mk.injEq] at h ⊢
        rcases h with h | h
        · tauto
        · rcases ih h with h' | h' <;> tauto

theorem insertM_WF {a b : Nat} {m : List (Nat × Nat)} (h : MapWF m) :
    MapWF (insertM a b m) := by
  rw [mapWF_iff_pairwise] at h ⊢
  induction m with
  | nil => simp [insertM, keysOf]
  | cons p rest ih =>
    obtain ⟨k₀, v₀⟩ := p
    simp only [keysOf, List.map_cons, List.pairwise_cons] at h
    obtain ⟨hlt, hrest⟩ := h
    simp only [insertM]
    split
    · rename_i hak
      simp only [keysOf, List.map_cons, List.pairwise_cons, List.mem_cons] at *
      refine ⟨?_, hlt, hrest⟩
      rintro y (rfl | hy)
      · exact hak
      · exact hak.trans (hlt y hy)
    · split
      · rename_i hak
        simp only [keysOf, List.map_cons, List.pairwise_cons] at *
        subst hak
        exact ⟨hlt, hrest⟩
      · rename_i hna hne
        have hka : k₀ < a := by omega
        simp only [keysOf, List.map_cons, List.pairwise_cons] at *
        refine ⟨?_, ih hrest⟩
        intro y hy
        have : y ∈ keysOf (insertM a b rest) := hy
        rcases keysOf_insertM.mp this with rfl | hy'
        · exact hka
        · exact hlt y hy'

theorem mem_insertM_iff {a b k v : Nat} {m : List (Nat × Nat)} (hwf : MapWF m) :
    (k, v) ∈ insertM a b m ↔ (k = a ∧ v = b) ∨ ((k, v) ∈ m ∧ k ≠ a) := by
  induction m with
  | nil => simp [insertM, Prod.mk.injEq]
  | cons p rest ih =>
    obtain ⟨k₀, v₀⟩ := p
    have hlt := mapWF_head_lt hwf
    have hrest := mapWF_tail hwf
    simp only [insertM]
    split
    · rename_i hak
      constructor
      · intro h
        rcases List.mem_cons.mp h with h | h
        · simp only [Prod.mk.injEq] at h
          exact Or.inl h
        · refine Or.inr ⟨h, ?_⟩
          rcases List.mem_cons.mp h with h' | h'
          · have hk : k = k₀ := congrArg Prod.fst h'
            omega
          · have := hlt _ h'
            omega
      · rintro (⟨rfl, rfl⟩ | ⟨h, _⟩)
        · exact List.mem_cons_self _ _
        · exact List.mem_cons_of_mem _ h
    · split
      · rename_i hak
        subst hak
        constructor
        · intro h
          rcases List.mem_cons.mp h with h | h
          · simp only [Prod.mk.injEq] at h
            exact Or.inl h
          · have := hlt _ h
            exact Or.inr ⟨List.mem_cons_of_mem _ h, by omega⟩
        · rintro (⟨rfl, rfl⟩ | ⟨h, hne⟩)
          · exact List.mem_cons_self _ _
          · rcases List.mem_cons.mp h with h' | h'
            · simp only [Prod.mk.injEq] at h'
              omega
            · exact List.mem_cons_of_mem _ h'
      · rename_i hna hne
        have hka : k₀ < a := by omega
        constructor
        · intro h
          rcases List.mem_cons.mp h with h | h
          · simp only [Prod.mk.injEq] at h
            refine Or.inr ⟨List.mem_cons.mpr (Or.inl (by simp [h.1, h.2])), by omega⟩
          · rcases (ih hrest).mp h with h' | ⟨h', hne'⟩
            · exact Or.inl h'
            · exact Or.inr ⟨List.mem_cons_of_mem _ h', hne'⟩
        · rintro (⟨rfl, rfl⟩ | ⟨h, hne'⟩)
          · exact List.mem_cons_of_mem _ ((ih hrest).mpr (Or.inl ⟨rfl, rfl⟩))
          · rcases List.mem_cons.mp h with h' | h'
            · simp only [Prod.mk.injEq] at h'
              exact List.mem_cons.mpr (Or.inl (by simp [h'.1, h'.2]))
            · exact List.mem_cons_of_mem _ ((ih hrest).mpr (Or.inr ⟨h', hne'⟩))

theorem insertM_length_le (a b : Nat) (m : List (Nat × Nat)) :
    (insertM a b m).length ≤ m.length + 1 := by
  induction m with
  | nil => simp [insertM]
  | cons p rest ih =>
    obtain ⟨k₀, v₀⟩ := p
    simp only [insertM]
    split
    · simp
    · split
      · simp
      · simpa using Nat.succ_le_succ ih

theorem insertM_length_fresh {a : Nat} (b : Nat) {m : List (Nat × Nat)}
    (h : a ∉ keysOf m) : (insertM a b m).length = m.length + 1 := by
  induction m with
  | nil => simp [insertM]
  | cons p rest ih =>
    obtain ⟨k₀, v₀⟩ := p
    simp only [keysOf, List.map_cons, List.mem_cons] at h
    push_neg at h
    simp only [insertM]
    split
    · simp
    · split
      · rename_i hak
        exact absurd hak h.1
      · simpa using ih h.2

theorem foldl_ins_WF {l : List (Nat × Nat)} {m : List (Nat × Nat)} (h : MapWF m) :
    MapWF (l.foldl (fun m p => insertM p.1 p.2 m) m) := by
  induction l generalizing m with
  | nil => exact h
  | cons p rest ih => exact ih (insertM_WF h)

theorem collectM_WF (l : List (Nat × Nat)) : MapWF (collectM l) := by
  have h : MapWF ([] : List (Nat × Nat)) := List.chain'_nil
  exact foldl_ins_WF h

theorem mem_foldl_ins {l : List (Nat × Nat)} {m : List (Nat × Nat)} {k v : Nat}
    (h : (k, v) ∈ l.foldl (fun m p => insertM p.1 p.2 m) m) :
    (k, v) ∈ m ∨ (k, v) ∈ l := by
  induction l generalizing m with
  | nil => exact Or.inl h
  | cons p rest ih =>
    rcases ih h with h' | h'
    · rcases mem_insertM_of h' with ⟨rfl, rfl⟩ | h''
      · exact Or.inr (List.mem_cons_self _ _)
      · exact Or.inl h''
    · exact Or.inr (List.mem_cons_of_mem _ h')

theorem mem_collectM_of {l : List (Nat × Nat)} {k v : Nat}
    (h : (k, v) ∈ collectM l) : (k, v) ∈ l := by
  rcases mem_foldl_ins h with h' | h'
  · simp at h'
  · exact h'

theorem keys_foldl_ins {l : List (Nat × Nat)} {m : List (Nat × Nat)} {k : Nat} :
    k ∈ keysOf (l.foldl (fun m p => insertM p.1 p.2 m) m) ↔
      k ∈ keysOf m ∨ k ∈ keysOf l := by
  induction l generalizing m with
  | nil => simp [keysOf]
  | cons p rest ih =>
    obtain ⟨a, b⟩ := p
    simp only [List.foldl_cons]
    rw [ih]
    simp only [keysOf_insertM, keysOf_cons, List.mem_cons]
    tauto

theorem keys_collectM {l : List (Nat × Nat)} {k : Nat} :
    k ∈ keysOf (collectM l) ↔ k ∈ keysOf l := by
  rw [collectM, keys_foldl_ins]
  simp [keysOf]

theorem mem_collectM_iff {l : List (Nat × Nat)} (h : (keysOf l).Nodup) {k v : Nat} :
    (k, v) ∈ collectM l ↔ (k, v) ∈ l := by
  induction l using List.reverseRecOn with
  | nil => simp [collectM]
  | append_singleton l p ih =>
    obtain ⟨a, b⟩ := p
    have hsplit : keysOf (l ++ [(a, b)]) = keysOf l ++ [a] := by
      simp [keysOf]
    rw [hsplit] at h
    have hnl : (keysOf l).Nodup := (List.nodup_append.mp h).1
    have hna : a ∉ keysOf l := by
      intro hmem
      exact (List.nodup_append.mp h).2.2 hmem (List.mem_singleton_self a)
    have hfold : collectM (l ++ [(a, b)]) = insertM a b (collectM l) := by
      simp [collectM, List.foldl_append]
    rw [hfold, mem_insertM_iff (collectM_WF l), ih hnl]
    simp only [List.mem_append, List.mem_singleton, Prod.mk.injEq]
    constructor
    · rintro (⟨rfl, rfl⟩ | ⟨hm, hne⟩)
      · exact Or.inr ⟨rfl, rfl⟩
      · exact Or.inl hm
    · rintro (hm | ⟨rfl, rfl⟩)
      · have : k ∈ keysOf l := List.mem_map_of_mem Prod.fst hm
        exact Or.inr ⟨hm, fun hk => hna (hk ▸ this)⟩
      · exact Or.inl ⟨rfl, rfl⟩

theorem length_foldl_ins_le {l : List (Nat × Nat)} {m : List (Nat × Nat)} :
    (l.foldl (fun m p => insertM p.1 p.2 m) m).length ≤ m.length + l.length := by
  induction l generalizing m with
  | nil => simp
  | cons p rest ih =>
    calc (List.foldl (fun m p => insertM p.1 p.2 m) (insertM p.1 p.2 m) rest).length
        ≤ (insertM p.1 p.2 m).length + rest.length := ih
      _ ≤ (m.length + 1) + rest.length :=
          Nat.add_le_add_right (insertM_length_le p.1 p.2 m) _
      _ = m.length + (p :: rest).length := by simp; omega

theorem collectM_length_le (l : List (Nat × Nat)) : (collectM l).length ≤ l.length := by
  have h := length_foldl_ins_le (l := l) (m := [])
  simpa [collectM] using h

theorem collectM_length_nodup {l : List (Nat × Nat)} (h : (keysOf l).Nodup) :
    (collectM l).length = l.length := by
  induction l using List.reverseRecOn with
  | nil => simp [collectM]
  | append_singleton l p ih =>
    obtain ⟨a, b⟩ := p
    have hsplit : keysOf (l ++ [(a, b)]) = keysOf l ++ [a] := by
      simp [keysOf]
    rw [hsplit] at h
    have hnl : (keysOf l).Nodup := (List.nodup_append.mp h).1
    have hna : a ∉ keysOf l := by
      intro hmem
      exact (List.nodup_append.mp h).2.2 hmem (List.mem_singleton_self a)
    have hfold : collectM (l ++ [(a, b)]) = insertM a b (collectM l) := by
      simp [collectM, List.foldl_append]
    have hna' : a ∉ keysOf (collectM l) := fun hc => hna (keys_collectM.mp hc)
    rw [hfold, insertM_length_fresh b hna', ih hnl]
    simp

theorem length_eq_keys_length (m : List (Nat × Nat)) : m.length = (keysOf m).length := by
  simp [keysOf]

theorem collectM_length_lt {l : List (Nat × Nat)} (h : ¬ (keysOf l).Nodup) :
    (collectM l).length < l.length := by
  have h1 : (collectM l).length = (keysOf (collectM l)).length :=
    length_eq_keys_length _
  have h2 : (keysOf (collectM l)).Nodup := mapWF_nodup (collectM_WF l)
  have h3 : (keysOf (collectM l)).length = (keysOf (collectM l)).toFinset.card :=
    (List.toFinset_card_of_nodup h2).symm
  have h4 : (keysOf (collectM l)).toFinset ⊆ (keysOf l).toFinset := by
    intro x hx
    rw [List.mem_toFinset] at hx ⊢
    exact keys_collectM.mp hx
  have h5 : (keysOf (collectM l)).toFinset.card ≤ (keysOf l).toFinset.card :=
    Finset.card_le_card h4
  have h6 : (keysOf l).toFinset.card = (keysOf l).dedup.length := List.card_toFinset _
  have h7 : (keysOf l).dedup.length < (keysOf l).length := by
    have hsub := (keysOf l).dedup_sublist
    rcases Nat.lt_or_ge (keysOf l).dedup.length (keysOf l).length with hlt | hge
    · exact hlt
    · exfalso
      have heq : (keysOf l).dedup = keysOf l :=
        hsub.eq_of_length (Nat.le_antisymm hsub.length_le hge)
      exact h (heq ▸ (keysOf l).nodup_dedup)
  have h8 : (keysOf l).length = l.length := (length_eq_keys_length l).symm
  omega

/-! Lemmas about the reverse linear-scan lookup. -/

theorem revLookup_eq_none {m : List (Nat × Nat)} {x : Nat} :
    revLookup m x = none ↔ ∀ p ∈ m, p.2 ≠ x := by
  induction m with
  | nil => simp [revLookup]
  | cons p rest ih =>
    obtain ⟨k, v⟩ := p
    by_cases hv : v = x
    · subst hv
      simp [revLookup]
    · simp only [revLookup, if_neg hv, ih, List.mem_cons]
      constructor
      · rintro h q (rfl | hq)
        · exact hv
        · exact h q hq
      · intro h q hq
        exact h q (Or.inr hq)

theorem revLookup_mem {m : List (Nat × Nat)} {x k : Nat}
    (h : revLookup m x = some k) : (k, x) ∈ m := by
  induction m with
  | nil => simp [revLookup] at h
  | cons p rest ih =>
    obtain ⟨k₀, v₀⟩ := p
    rw [revLookup_cons] at h
    by_cases hv : v₀ = x
    · rw [if_pos hv, Option.some.injEq] at h
      subst hv
      subst h
      exact List.mem_cons_self _ _
    · rw [if_neg hv] at h
      exact List.mem_cons_of_mem _ (ih h)

theorem revLookup_isSome {m : List (Nat × Nat)} {x k : Nat}
    (h : (k, x) ∈ m) : (revLookup m x).isSome = true := by
  induction m with
  | nil => simp at h
  | cons p rest ih =>
    obtain ⟨k₀, v₀⟩ := p
    rw [revLookup_cons]
    by_cases hv : v₀ = x
    · rw [if_pos hv]
      rfl
    · rw [if_neg hv]
      rcases List.mem_cons.mp h with h' | h'
      · rw [Prod.mk.injEq] at h'
        exact absurd h'.2.symm hv
      · exact ih h'

theorem revLookup_least {m : List (Nat × Nat)} (hwf : MapWF m) {x k₀ : Nat}
    (h : revLookup m x = some k₀) : ∀ p ∈ m, p.2 = x → k₀ ≤ p.1 := by
  induction m with
  | nil => simp [revLookup] at h
  | cons p rest ih =>
    obtain ⟨k, v⟩ := p
    have hlt := mapWF_head_lt hwf
    have hrest := mapWF_tail hwf
    rw [revLookup_cons] at h
    by_cases hv : v = x
    · rw [if_pos hv, Option.some.injEq] at h
      subst h
      rintro q hq hqx
      rcases List.mem_cons.mp hq with rfl | hq'
      · exact Nat.le_refl _
      · exact Nat.le_of_lt (hlt q hq')
    · rw [if_neg hv] at h
      rintro q hq hqx
      rcases List.mem_cons.mp hq with rfl | hq'
      · exact absurd hqx hv
      · exact ih hrest h q hq' hqx

theorem revLookup_min {m : List (Nat × Nat)} (hwf : MapWF m) {k x : Nat}
    (hm : (k, x) ∈ m) (hmin : ∀ p ∈ m, p.2 = x → k ≤ p.1) :
    revLookup m x = some k := by
  obtain ⟨k₀, hk₀⟩ := Option.isSome_iff_exists.mp (revLookup_isSome hm)
  have hmem := revLookup_mem hk₀
  have h1 : k₀ ≤ k := revLookup_least hwf hk₀ (k, x) hm rfl
  have h2 : k ≤ k₀ := hmin (k₀, x) hmem rfl
  have : k₀ = k := Nat.le_antisymm h1 h2
  rw [hk₀, this]

/-! Lemmas about folded maxima and the callee-set fold. -/

theorem foldl_max_mem (l : List Nat) (a : Nat) :
    l.foldl max a = a ∨ l.foldl max a ∈ l := by
  induction l generalizing a with
  | nil => exact Or.inl rfl
  | cons b t ih =>
    rcases ih (max a b) with h | h
    · rcases max_choice a b with hm | hm
      · refine Or.inl ?_
        rw [List.foldl_cons, h, hm]
      · refine Or.inr (List.mem_cons.mpr (Or.inl ?_))
        rw [List.foldl_cons, h, hm]
    · exact Or.inr (List.mem_cons_of_mem _ h)

theorem foldl_max_init_le (l : List Nat) (a : Nat) : a ≤ l.foldl max a := by
  induction l generalizing a with
  | nil => exact Nat.le_refl _
  | cons b t ih => exact le_trans (le_max_left a b) (ih (max a b))

theorem le_foldl_max {l : List Nat} (a : Nat) {x : Nat} (h : x ∈ l) :
    x ≤ l.foldl max a := by
  induction l generalizing a with
  | nil => simp at h
  | cons b t ih =>
    rcases List.mem_cons.mp h with rfl | h'
    · exact le_trans (le_max_right a x) (foldl_max_init_le t (max a x))
    · exact ih (max a b) h'

theorem mem_calleesOf_fold {code : List Bytecode} {s : Finset (Nat × Nat)} {c : Nat × Nat} :
    c ∈ code.foldl (fun s b => match b.callee with | some x => insert x s | none => s) s ↔
      c ∈ s ∨ ∃ b ∈ code, b.callee = some c := by
  induction code generalizing s with
  | nil => simp
  | cons b rest ih =>
    simp only [List.foldl_cons]
    cases hb : b.callee with
    | none =>
      simp only [hb]
      rw [ih]
      constructor
      · rintro (h | h)
        · exact Or.inl h
        · obtain ⟨b', hb', hc⟩ := h
          exact Or.inr ⟨b', List.mem_cons_of_mem _ hb', hc⟩
      · rintro (h | ⟨b', hb', hc⟩)
        · exact Or.inl h
        · rcases List.mem_cons.mp hb' with rfl | hb''
          · rw [hb] at hc
            exact absurd hc (by simp)
          · exact Or.inr ⟨b', hb'', hc⟩
    | some x =>
      simp only [hb]
      rw [ih]
      constructor
      · rintro (h | h)
        · rcases Finset.mem_insert.mp h with rfl | h'
          · exact Or.inr ⟨b, List.mem_cons_self _ _, hb⟩
          · exact Or.inl h'
        · obtain ⟨b', hb', hc⟩ := h
          exact Or.inr ⟨b', List.mem_cons_of_mem _ hb', hc⟩
      · rintro (h | ⟨b', hb', hc⟩)
        · exact Or.inl (Finset.mem_insert_of_mem h)
        · rcases List.mem_cons.mp hb' with rfl | hb''
          · rw [hb] at hc
            exact Or.inl (Finset.mem_insert.mpr (Or.inl (by simpa using hc.symm)))
          · exact Or.inr ⟨b', hb'', hc⟩

theorem mem_calleesOf {code : List Bytecode} {c : Nat × Nat} :
    c ∈ calleesOf code ↔ ∃ b ∈ code, b.callee = some c := by
  rw [calleesOf, mem_calleesOf_fold]
  simp

/-! Concrete fixtures used to instantiate theorems with hypotheses. -/

def dEmpty : FunctionData := ⟨[], [], [], [], [], [], [], [], [], [], [], []⟩

def envPub : FunctionEnv := ⟨true, []⟩

def envPriv : FunctionEnv := ⟨false, []⟩

def ftPriv : FunctionTarget := ⟨envPriv, dEmpty⟩

/-! Claim theorems. -/

/-- C1: `is_unchecked_param(idx)` is true iff (the function is not public, or a
call to it does not end reference lifetimes) and `idx` is a key of
`ref_param_proxy_map`; a call ends reference lifetimes iff the function is
public and no return type is a reference; in particular, for a public function
all of whose return types are non-reference, `is_unchecked_param(idx)` is
false even when `idx` is registered in the proxy map. -/
theorem C1_is_unchecked_param (ft : FunctionTarget) (idx : Nat) :
    (ft.is_unchecked_param idx = true ↔
      ((ft.is_public = false ∨ ft.call_ends_lifetime = false) ∧
        idx ∈ keysOf ft.data.ref_param_proxy_map)) ∧
    (ft.call_ends_lifetime = true ↔
      (ft.is_public = true ∧ ∀ ty ∈ ft.data.return_types, ty.is_reference = false)) ∧
    (ft.is_public = true →
      (∀ ty ∈ ft.data.return_types, ty.is_reference = false) →
      ft.is_unchecked_param idx = false) := by
  have hkey : (ft.get_ref_proxy_index idx).isSome = true ↔
      idx ∈ keysOf ft.data.ref_param_proxy_map := alookup_isSome_iff
  have hcel : ft.call_ends_lifetime = true ↔
      (ft.is_public = true ∧ ∀ ty ∈ ft.data.return_types, ty.is_reference = false) := by
    simp only [FunctionTarget.call_ends_lifetime, Bool.and_eq_true, List.all_eq_true,
      Bool.not_eq_true']
  refine ⟨?_, hcel, ?_⟩
  · simp only [FunctionTarget.is_unchecked_param, Bool.and_eq_true, Bool.or_eq_true,
      Bool.not_eq_true', hkey]
  · intro hpub hret
    have h1 : ft.call_ends_lifetime = true := hcel.mpr ⟨hpub, hret⟩
    simp [FunctionTarget.is_unchecked_param, hpub, h1]

def dC1 : FunctionData :=
  { dEmpty with return_types := [MvType.nonReference], ref_param_proxy_map := [(0, 3)] }

def ftC1 : FunctionTarget := ⟨envPub, dC1⟩

/-- C1 witness: a public function with non-reference return types and a
registered ref-proxy entry for parameter 0 still reports the parameter as
checked. -/
theorem C1_witness : ftC1.is_unchecked_param 0 = false :=
  (C1_is_unchecked_param ftC1 0).2.2 rfl (by decide)

/-- C2 counterexample: for the name with characters dollar, t, x — which is
absent from `name_to_index` and matches the reserved temporary pattern but has
a non-numeric suffix — `get_local_index` panics (the `unwrap` in the source)
instead of returning the normal "no index found" outcome. -/
theorem C2_counterexample :
    alookup dEmpty.name_to_index ['$', 't', 'x'] = none ∧
    ftPriv.get_local_index ['$', 't', 'x'] = Except.error () :=
  ⟨rfl, rfl⟩

/-- C2 (amended): for a name absent from `name_to_index`: if it does not carry
the reserved `$t` marker the result is the normal `none`; if it carries the
marker and the suffix parses as a usize the parsed suffix is returned; if it
carries the marker but the suffix does not parse, the function panics. -/
theorem C2_get_local_index (ft : FunctionTarget) (name : List Char)
    (habs : alookup ft.data.name_to_index name = none) :
    (stripDollarT name = none → ft.get_local_index name = Except.ok none) ∧
    (∀ s v, stripDollarT name = some s → parseUsize s = some v →
      ft.get_local_index name = Except.ok (some v)) ∧
    (∀ s, stripDollarT name = some s → parseUsize s = none →
      ft.get_local_index name = Except.error ()) := by
  refine ⟨?_, ?_, ?_⟩
  · intro hstrip
    simp only [FunctionTarget.get_local_index, habs, hstrip]
  · intro s v hstrip hparse
    simp only [FunctionTarget.get_local_index, habs, hstrip, hparse]
  · intro s hstrip hparse
    simp only [FunctionTarget.get_local_index, habs, hstrip, hparse]

/-- C2 witness: the unregistered temporary name with characters dollar, t, 7
resolves to index 7 through the fallback. -/
theorem C2_witness : ftPriv.get_local_index ['$', 't', '7'] = Except.ok (some 7) :=
  (C2_get_local_index ftPriv ['$', 't', '7'] rfl).2.1 ['7'] 7 rfl (by decide)

/-- C4: cloning a FunctionData yields an empty annotation store and copies
every other field unchanged, for every source record (in particular one whose
annotation store is non-empty). -/
theorem C4_clone_drops_annotations (d : FunctionData) :
    d.clone.annotations = [] ∧
    d.clone.code = d.code ∧
    d.clone.local_types = d.local_types ∧
    d.clone.return_types = d.return_types ∧
    d.clone.param_proxy_map = d.param_proxy_map ∧
    d.clone.ref_param_proxy_map = d.ref_param_proxy_map ∧
    d.clone.ref_param_return_map = d.ref_param_return_map ∧
    d.clone.acquires_global_resources = d.acquires_global_resources ∧
    d.clone.locations = d.locations ∧
    d.clone.spec_blocks_on_impl = d.spec_blocks_on_impl ∧
    d.clone.name_to_index = d.name_to_index ∧
    d.clone.modify_targets = d.modify_targets :=
  ⟨rfl, rfl, rfl, rfl, rfl, rfl, rfl, rfl, rfl, rfl, rfl, rfl⟩

/-- C8: `get_spec_on_impl(block_id)` aborts exactly when the block id has no
entry in `spec_blocks_on_impl` or the resolved code offset has no attached
specification; when both lookups succeed it returns the specification at that
offset. -/
theorem C8_get_spec_on_impl (ft : FunctionTarget) (block_id : Nat) :
    (ft.get_spec_on_impl block_id = none ↔
      (alookup ft.data.spec_blocks_on_impl block_id = none ∨
        ∃ off, alookup ft.data.spec_blocks_on_impl block_id = some off ∧
          alookup ft.func_env.spec_on_impl off = none)) ∧
    (∀ off s, alookup ft.data.spec_blocks_on_impl block_id = some off →
      alookup ft.func_env.spec_on_impl off = some s →
      ft.get_spec_on_impl block_id = some s) := by
  constructor
  · rw [FunctionTarget.get_spec_on_impl]
    cases h1 : alookup ft.data.spec_blocks_on_impl block_id with
    | none => simp
    | some off =>
      cases h2 : alookup ft.func_env.spec_on_impl off with
      | none =>
        simp only [h2, true_iff]
        exact Or.inr ⟨off, rfl, h2⟩
      | some s =>
        simp only [h2]
        constructor
        · intro hc
          exact Option.noConfusion hc
        · rintro (hc | ⟨off', hoff', hnone⟩)
          · exact Option.noConfusion hc
          · have hoe : off = off' := Option.some.inj hoff'
            rw [← hoe, h2] at hnone
            exact Option.noConfusion hnone
  · intro off s h1 h2
    simp only [FunctionTarget.get_spec_on_impl, h1, h2]

def ftC8 : FunctionTarget :=
  ⟨⟨true, [(5, 42)]⟩, { dEmpty with spec_blocks_on_impl := [(1, 5)] }⟩

/-- C8 witness: block id 1 resolves to offset 5, which carries specification
42. -/
theorem C8_witness : ftC8.get_spec_on_impl 1 = some 42 :=
  (C8_get_spec_on_impl ftC8 1).2 5 42 rfl rfl

/-- C6: `next_free_attr_index` is 1 when the code is empty and otherwise
1 plus the attribute id of some instruction that bounds all the others;
`next_free_label_index` satisfies the same over the declared labels; each
returned id strictly exceeds every id of its kind in the code. -/
theorem C6_next_free_indices (d : FunctionData) :
    (d.code = [] → d.next_free_attr_index = 1) ∧
    (d.code ≠ [] → ∃ b ∈ d.code, d.next_free_attr_index = b.get_attr_id + 1) ∧
    (∀ b ∈ d.code, b.get_attr_id < d.next_free_attr_index) ∧
    (d.labels = [] → d.next_free_label_index = 1) ∧
    (d.labels ≠ [] → ∃ l ∈ d.labels, d.next_free_label_index = l + 1) ∧
    (∀ l ∈ d.labels, l < d.next_free_label_index) := by
  refine ⟨?_, ?_, ?_, ?_, ?_, ?_⟩
  · intro h
    simp [FunctionData.next_free_attr_index, h]
  · intro h
    rcases foldl_max_mem (d.code.map Bytecode.get_attr_id) 0 with hm | hm
    · obtain ⟨b₀, hb₀⟩ := List.exists_mem_of_ne_nil d.code h
      have hle : b₀.get_attr_id ≤ (d.code.map Bytecode.get_attr_id).foldl max 0 :=
        le_foldl_max 0 (List.mem_map_of_mem Bytecode.get_attr_id hb₀)
      rw [hm] at hle
      refine ⟨b₀, hb₀, ?_⟩
      rw [FunctionData.next_free_attr_index, hm]
      omega
    · obtain ⟨b, hb, hbe⟩ := List.mem_map.mp hm
      refine ⟨b, hb, ?_⟩
      rw [FunctionData.next_free_attr_index, hbe]
  · intro b hb
    have hle := le_foldl_max 0 (List.mem_map_of_mem Bytecode.get_attr_id hb)
    rw [FunctionData.next_free_attr_index]
    omega
  · intro h
    simp [FunctionData.next_free_label_index, h]
  · intro h
    rcases foldl_max_mem d.labels 0 with hm | hm
    · obtain ⟨l₀, hl₀⟩ := List.exists_mem_of_ne_nil d.labels h
      have hle := le_foldl_max 0 hl₀
      rw [hm] at hle
      refine ⟨l₀, hl₀, ?_⟩
      rw [FunctionData.next_free_label_index, hm]
      omega
    · exact ⟨_, hm, rfl⟩
  · intro l hl
    have hle := le_foldl_max 0 hl
    rw [FunctionData.next_free_label_index]
    omega

def dC6 : FunctionData :=
  { dEmpty with code := [Bytecode.label 0 2, Bytecode.otherInstr 5] }

/-- C6 witness: with attribute ids 0 and 5 and one label 2, the next free
attribute index is the successor of an existing maximal id, and likewise for
labels. -/
theorem C6_witness :
    (∃ b ∈ dC6.code, dC6.next_free_attr_index = b.get_attr_id + 1) ∧
    (∃ l ∈ dC6.labels, dC6.next_free_label_index = l + 1) :=
  ⟨(C6_next_free_indices dC6).2.1 (by decide),
   (C6_next_free_indices dC6).2.2.2.2.1 (by decide)⟩

/-- C7: `get_callees` is exactly the set of qualified ids of direct,
statically-resolved callees in the code — a qualified id is in the returned
set iff some instruction calls it directly — and the set is unchanged under
any permutation of the instruction sequence (so the result is
order-independent, and duplicates collapse since the result is a set). -/
theorem C7_get_callees (d : FunctionData) :
    (∀ c, c ∈ d.get_callees ↔ ∃ b ∈ d.code, b.callee = some c) ∧
    (∀ code2 : List Bytecode, d.code.Perm code2 → d.get_callees = calleesOf code2) := by
  constructor
  · intro c
    exact mem_calleesOf
  · intro code2 hp
    apply Finset.ext
    intro c
    rw [FunctionData.get_callees, mem_calleesOf, mem_calleesOf]
    constructor
    · rintro ⟨b, hb, hc⟩
      exact ⟨b, hp.mem_iff.mp hb, hc⟩
    · rintro ⟨b, hb, hc⟩
      exact ⟨b, hp.mem_iff.mpr hb, hc⟩

def dC7 : FunctionData :=
  { dEmpty with code := [Bytecode.call 0 (Operation.function 1 1),
      Bytecode.call 1 (Operation.function 2 2),
      Bytecode.call 2 (Operation.function 1 1),
      Bytecode.otherInstr 3] }

/-- C7 witness: direct calls to A = (1,1), B = (2,2), A again, plus one
non-call instruction yield exactly the two-element set, also after reversing
the instruction order. -/
theorem C7_witness :
    dC7.get_callees = calleesOf dC7.code.reverse ∧
    dC7.get_callees = {(1, 1), (2, 2)} :=
  ⟨(C7_get_callees dC7).2 dC7.code.reverse (List.reverse_perm dC7.code).symm,
   by decide⟩

/-- C3: `rename_vars(f)` rebuilds `param_proxy_map` and `ref_param_proxy_map`
with `f` applied to both the key and the value of every entry — every new
entry arises from an old entry this way, and when `f` is injective every old
entry survives as its image — while `code`, `local_types`, `return_types`,
`name_to_index` and `ref_param_return_map` are left unchanged. -/
theorem C3_rename_vars (d : FunctionData) (f : Nat → Nat)
    (hwf1 : MapWF d.param_proxy_map) (hwf2 : MapWF d.ref_param_proxy_map) :
    ((d.rename_vars f).code = d.code ∧
     (d.rename_vars f).local_types = d.local_types ∧
     (d.rename_vars f).return_types = d.return_types ∧
     (d.rename_vars f).name_to_index = d.name_to_index ∧
     (d.rename_vars f).ref_param_return_map = d.ref_param_return_map) ∧
    (∀ a b, (a, b) ∈ (d.rename_vars f).param_proxy_map →
      ∃ k v, (k, v) ∈ d.param_proxy_map ∧ a = f k ∧ b = f v) ∧
    (∀ a b, (a, b) ∈ (d.rename_vars f).ref_param_proxy_map →
      ∃ k v, (k, v) ∈ d.ref_param_proxy_map ∧ a = f k ∧ b = f v) ∧
    (Function.Injective f →
      (∀ k v, (k, v) ∈ d.param_proxy_map →
        (f k, f v) ∈ (d.rename_vars f).param_proxy_map) ∧
      (∀ k v, (k, v) ∈ d.ref_param_proxy_map →
        (f k, f v) ∈ (d.rename_vars f).ref_param_proxy_map)) := by
  have hrev : ∀ m : List (Nat × Nat), ∀ a b,
      (a, b) ∈ collectM (m.map (fun p => (f p.1, f p.2))) →
      ∃ k v, (k, v) ∈ m ∧ a = f k ∧ b = f v := by
    intro m a b h
    obtain ⟨⟨k, v⟩, hm, heq⟩ := List.mem_map.mp (mem_collectM_of h)
    rw [Prod.mk.injEq] at heq
    exact ⟨k, v, hm, heq.1.symm, heq.2.symm⟩
  have hfwd : ∀ m : List (Nat × Nat), MapWF m → Function.Injective f → ∀ k v,
      (k, v) ∈ m → (f k, f v) ∈ collectM (m.map (fun p => (f p.1, f p.2))) := by
    intro m hwf hinj k v hm
    have hkeys : keysOf (m.map (fun p => (f p.1, f p.2))) = (keysOf m).map f := by
      simp [keysOf, List.map_map, Function.comp]
    have hnd : (keysOf (m.map (fun p => (f p.1, f p.2)))).Nodup := by
      rw [hkeys]
      exact (mapWF_nodup hwf).map hinj
    rw [mem_collectM_iff hnd]
    exact List.mem_map_of_mem _ hm
  refine ⟨⟨rfl, rfl, rfl, rfl, rfl⟩, ?_, ?_, ?_⟩
  · exact hrev d.param_proxy_map
  · exact hrev d.ref_param_proxy_map
  · intro hinj
    exact ⟨hfwd d.param_proxy_map hwf1 hinj, hfwd d.ref_param_proxy_map hwf2 hinj⟩

def dC3 : FunctionData :=
  { dEmpty with
    param_proxy_map := [(2, 5)]
    ref_param_proxy_map := [(0, 3)]
    ref_param_return_map := [(4, 1)]
    code := [Bytecode.otherInstr 0] }

/-- C3 witness: with maps 2 maps-to 5 and 0 maps-to 3 and the renaming adding
10, the entries become (12,15) and (10,13), while `code` and
`ref_param_return_map` are untouched. -/
theorem C3_witness :
    (dC3.rename_vars (fun n => n + 10)).ref_param_return_map = dC3.ref_param_return_map ∧
    (dC3.rename_vars (fun n => n + 10)).code = dC3.code ∧
    (12, 15) ∈ (dC3.rename_vars (fun n => n + 10)).param_proxy_map ∧
    (10, 13) ∈ (dC3.rename_vars (fun n => n + 10)).ref_param_proxy_map := by
  have hinj : Function.Injective (fun n : Nat => n + 10) :=
    fun a b hab => Nat.add_right_cancel hab
  have h := C3_rename_vars dC3 (fun n => n + 10) (by decide) (by decide)
  exact ⟨h.1.2.2.2.2, h.1.1,
    (h.2.2.2 hinj).1 2 5 (by decide), (h.2.2.2 hinj).2 0 3 (by decide)⟩

theorem renameMap_counts (m : List (Nat × Nat)) (f : Nat → Nat) (hwf : MapWF m) :
    (collectM (m.map (fun p => (f p.1, f p.2)))).length ≤ m.length ∧
    ((∀ a ∈ keysOf m, ∀ b ∈ keysOf m, f a = f b → a = b) →
      (collectM (m.map (fun p => (f p.1, f p.2)))).length = m.length) ∧
    (∀ k₁ k₂, k₁ ∈ keysOf m → k₂ ∈ keysOf m → k₁ ≠ k₂ → f k₁ = f k₂ →
      (collectM (m.map (fun p => (f p.1, f p.2)))).length < m.length ∧
      f k₁ ∈ keysOf (collectM (m.map (fun p => (f p.1, f p.2)))) ∧
      (keysOf (collectM (m.map (fun p => (f p.1, f p.2))))).Nodup) := by
  have hkeys : keysOf (m.map (fun p => (f p.1, f p.2))) = (keysOf m).map f := by
    simp [keysOf, List.map_map, Function.comp]
  have hlen : (m.map (fun p => (f p.1, f p.2))).length = m.length := List.length_map _ _
  refine ⟨?_, ?_, ?_⟩
  · calc (collectM (m.map (fun p => (f p.1, f p.2)))).length
        ≤ (m.map (fun p => (f p.1, f p.2))).length := collectM_length_le _
      _ = m.length := hlen
  · intro hinj
    have hnd : (keysOf (m.map (fun p => (f p.1, f p.2)))).Nodup := by
      rw [hkeys]
      exact (mapWF_nodup hwf).map_on hinj
    rw [collectM_length_nodup hnd, hlen]
  · intro k₁ k₂ h₁ h₂ hne hfe
    have hnotnd : ¬ (keysOf (m.map (fun p => (f p.1, f p.2)))).Nodup := by
      rw [hkeys]
      intro hnd
      exact hne (List.inj_on_of_nodup_map hnd h₁ h₂ hfe)
    refine ⟨?_, ?_, mapWF_nodup (collectM_WF _)⟩
    · calc (collectM (m.map (fun p => (f p.1, f p.2)))).length
          < (m.map (fun p => (f p.1, f p.2))).length := by
            have := collectM_length_lt hnotnd
            omega
        _ = m.length := hlen
    · rw [keys_collectM, hkeys]
      exact List.mem_map_of_mem f h₁

/-- C9: `rename_vars(f)` never grows `param_proxy_map` or
`ref_param_proxy_map`; when `f` is injective on a map's keys that map's entry
count is preserved exactly; and when `f` identifies two distinct keys of a
map the rebuilt map is strictly smaller — the colliding entries are merged
into a single entry at the common image key. -/
theorem C9_rename_vars_entry_counts (d : FunctionData) (f : Nat → Nat)
    (hwf1 : MapWF d.param_proxy_map) (hwf2 : MapWF d.ref_param_proxy_map) :
    ((d.rename_vars f).param_proxy_map.length ≤ d.param_proxy_map.length ∧
     (d.rename_vars f).ref_param_proxy_map.length ≤ d.ref_param_proxy_map.length) ∧
    ((∀ a ∈ keysOf d.param_proxy_map, ∀ b ∈ keysOf d.param_proxy_map, f a = f b → a = b) →
      (d.rename_vars f).param_proxy_map.length = d.param_proxy_map.length) ∧
    ((∀ a ∈ keysOf d.ref_param_proxy_map, ∀ b ∈ keysOf d.ref_param_proxy_map,
        f a = f b → a = b) →
      (d.rename_vars f).ref_param_proxy_map.length = d.ref_param_proxy_map.length) ∧
    (∀ k₁ k₂, k₁ ∈ keysOf d.param_proxy_map → k₂ ∈ keysOf d.param_proxy_map →
      k₁ ≠ k₂ → f k₁ = f k₂ →
      (d.rename_vars f).param_proxy_map.length < d.param_proxy_map.length ∧
      f k₁ ∈ keysOf (d.rename_vars f).param_proxy_map ∧
      (keysOf (d.rename_vars f).param_proxy_map).Nodup) ∧
    (∀ k₁ k₂, k₁ ∈ keysOf d.ref_param_proxy_map → k₂ ∈ keysOf d.ref_param_proxy_map →
      k₁ ≠ k₂ → f k₁ = f k₂ →
      (d.rename_vars f).ref_param_proxy_map.length < d.ref_param_proxy_map.length ∧
      f k₁ ∈ keysOf (d.rename_vars f).ref_param_proxy_map ∧
      (keysOf (d.rename_vars f).ref_param_proxy_map).Nodup) := by
  have h1 := renameMap_counts d.param_proxy_map f hwf1
  have h2 := renameMap_counts d.ref_param_proxy_map f hwf2
  exact ⟨⟨h1.1, h2.1⟩, h1.2.1, h2.2.1, h1.2.2, h2.2.2⟩

def dC9 : FunctionData :=
  { dEmpty with
    param_proxy_map := [(1, 2), (3, 4)]
    ref_param_proxy_map := [(0, 3), (2, 4)] }

/-- C9 witness: the constant renaming collapses the two keys of each map, so
each rebuilt map is strictly smaller; the additive renaming is injective and
preserves both entry counts. -/
theorem C9_witness :
    ((dC9.rename_vars (fun _ => 0)).param_proxy_map.length <
      dC9.param_proxy_map.length) ∧
    (dC9.rename_vars (fun n => n + 10)).param_proxy_map.length =
      dC9.param_proxy_map.length := by
  have hc := C9_rename_vars_entry_counts dC9 (fun _ => 0) (by decide) (by decide)
  have hi := C9_rename_vars_entry_counts dC9 (fun n => n + 10) (by decide) (by decide)
  exact ⟨(hc.2.2.2.1 1 3 (by decide) (by decide) (by decide) rfl).1,
    hi.2.1 (fun a _ b _ hab => Nat.add_right_cancel hab)⟩

def dC5 : FunctionData := { dEmpty with ref_param_proxy_map := [(1, 7), (3, 7)] }

def ftC5 : FunctionTarget := ⟨envPriv, dC5⟩

/-- C5 counterexample: with proxy entries (1,7) and (3,7), the entry (3,7) is
in the map but the reverse lookup at 7 returns Some 1, not Some 3, refuting
the claim for every entry. -/
theorem C5_counterexample :
    MapWF ftC5.data.ref_param_proxy_map ∧
    (3, 7) ∈ ftC5.data.ref_param_proxy_map ∧
    ftC5.get_reverse_ref_proxy_index 7 = some 1 ∧
    ftC5.get_reverse_ref_proxy_index 7 ≠ some 3 := by
  decide

/-- C5 (amended): for every entry (i, p) such that i is the least key mapped
to p — in particular whenever no other entry shares the value p —
`get_reverse_ref_proxy_index(p)` returns Some i; and for every p' that does
not occur as a value the reverse lookup returns the normal no-match outcome
(None). -/
theorem C5_reverse_ref_proxy_inverse (ft : FunctionTarget)
    (hwf : MapWF ft.data.ref_param_proxy_map) :
    (∀ i p, (i, p) ∈ ft.data.ref_param_proxy_map →
      (∀ q ∈ ft.data.ref_param_proxy_map, q.2 = p → i ≤ q.1) →
      ft.get_reverse_ref_proxy_index p = some i) ∧
    (∀ q', (∀ q ∈ ft.data.ref_param_proxy_map, q.2 ≠ q') →
      ft.get_reverse_ref_proxy_index q' = none) := by
  constructor
  · intro i p hm hmin
    exact revLookup_min hwf hm hmin
  · intro q' h
    exact revLookup_eq_none.mpr h

def ftC5w : FunctionTarget :=
  ⟨envPriv, { dEmpty with ref_param_proxy_map := [(1, 7), (3, 8)] }⟩

/-- C5 witness: with value-distinct entries (1,7) and (3,8), the reverse
lookup inverts entry (1,7), and 9 (not a value) yields none. -/
theorem C5_witness :
    ftC5w.get_reverse_ref_proxy_index 7 = some 1 ∧
    ftC5w.get_reverse_ref_proxy_index 9 = none :=
  ⟨(C5_reverse_ref_proxy_inverse ftC5w (by decide)).1 1 7 (by decide) (by decide),
   (C5_reverse_ref_proxy_inverse ftC5w (by decide)).2 9 (by decide)⟩

/-- C10: the reverse lookups over `ref_param_return_map` and
`ref_param_proxy_map` are deterministic even for non-injective maps: whenever
some key maps to the queried value, the lookup returns Some of the least such
key (the scan follows ascending key order). -/
theorem C10_reverse_lookups_least_key (ft : FunctionTarget)
    (h1 : MapWF ft.data.ref_param_return_map)
    (h2 : MapWF ft.data.ref_param_proxy_map) :
    (∀ k v, (k, v) ∈ ft.data.ref_param_return_map →
      ∃ k₀, ft.get_input_for_return_index v = some k₀ ∧
        (k₀, v) ∈ ft.data.ref_param_return_map ∧
        ∀ q ∈ ft.data.ref_param_return_map, q.2 = v → k₀ ≤ q.1) ∧
    (∀ k v, (k, v) ∈ ft.data.ref_param_proxy_map →
      ∃ k₀, ft.get_reverse_ref_proxy_index v = some k₀ ∧
        (k₀, v) ∈ ft.data.ref_param_proxy_map ∧
        ∀ q ∈ ft.data.ref_param_proxy_map, q.2 = v → k₀ ≤ q.1) := by
  constructor
  · intro k v hm
    obtain ⟨k₀, hk₀⟩ := Option.isSome_iff_exists.mp (revLookup_isSome hm)
    exact ⟨k₀, hk₀, revLookup_mem hk₀, revLookup_least h1 hk₀⟩
  · intro k v hm
    obtain ⟨k₀, hk₀⟩ := Option.isSome_iff_exists.mp (revLookup_isSome hm)
    exact ⟨k₀, hk₀, revLookup_mem hk₀, revLookup_least h2 hk₀⟩

def dC10 : FunctionData :=
  { dEmpty with
    ref_param_return_map := [(1, 7), (3, 7)]
    ref_param_proxy_map := [(2, 9)] }

def ftC10 : FunctionTarget := ⟨envPriv, dC10⟩

/-- C10 witness: with return-map entries (1,7) and (3,7), querying value 7
produces the least matching key. -/
theorem C10_witness :
    ∃ k₀, ftC10.get_input_for_return_index 7 = some k₀ ∧
      (k₀, 7) ∈ ftC10.data.ref_param_return_map ∧
      ∀ q ∈ ftC10.data.ref_param_return_map, q.2 = 7 → k₀ ≤ q.1 :=
  (C10_reverse_lookups_least_key ftC10 (by decide) (by decide)).1 1 7 (by decide)

end DiemFT
